import Mathlib

/-!
Verification of the texere rope/OT core against its specification.

The Go sources are shallowly embedded: rope content is a `List Char`
(one element per Unicode scalar, matching Go's `[]rune` view), changesets
are lists of retain/delete/insert operations with `Int` length counters
(Go `int`), and each Go function is rendered as a Lean function that
follows the source control flow.  Loops over slices become structural
recursion; the two loops whose Go form can in principle run unboundedly
(the changeset composer's merge loop and the sorted position mapper's
while-loop) take an explicit fuel argument that is chosen large enough to
reproduce every terminating Go execution.

The core rope type (rope.go with New/Insert/Delete/Slice) is not part of
the sources available here; those three primitives are modelled from the
specification where noted.
-/

namespace Texere

/-- Rope content: one list element per Unicode scalar (Go rune). -/
abbrev Str := List Char

/-- Modelled from the spec: `insert(pos, text)` splits at `pos` and
concatenates left, text, right (rope.go is not among the sources). -/
def insertAt (s : Str) (pos : Nat) (t : Str) : Str :=
  s.take pos ++ t ++ s.drop pos

/-- Modelled from the spec: `delete(a, b)` removes the scalars in `[a, b)`
(rope.go is not among the sources). -/
def deleteRange (s : Str) (a b : Nat) : Str :=
  s.take a ++ s.drop b

/-- Modelled from the spec: `slice(a, b)` returns the substring `[a, b)`
(rope.go is not among the sources). -/
def sliceStr (s : Str) (a b : Nat) : Str :=
  (s.drop a).take (b - a)

/-- Operation, from part_006 `Operation` / `OpType`
(OpRetain, OpDelete, OpInsert). -/
inductive Op where
  | retain (n : Nat)
  | delete (n : Nat)
  | insert (t : Str)
deriving DecidableEq, Repr

/-- ChangeSet, from part_006: operations plus the two length counters. -/
structure ChangeSet where
  operations : List Op
  lenBefore : Int
  lenAfter : Int
deriving DecidableEq, Repr

/-- part_006 `NewChangeSet`. -/
def NewChangeSet (lenBefore : Int) : ChangeSet :=
  { operations := [], lenBefore := lenBefore, lenAfter := lenBefore }

/-- part_006 `ChangeSet.Retain`. -/
def ChangeSet.Retain (cs : ChangeSet) (n : Nat) : ChangeSet :=
  { cs with operations := cs.operations ++ [.retain n] }

/-- part_006 `ChangeSet.Delete`: also decrements `lenAfter`. -/
def ChangeSet.Delete (cs : ChangeSet) (n : Nat) : ChangeSet :=
  { cs with operations := cs.operations ++ [.delete n],
            lenAfter := cs.lenAfter - n }

/-- part_006 `ChangeSet.Insert`: increments `lenAfter` by the rune count
of the inserted text (`len([]rune(text))`). -/
def ChangeSet.Insert (cs : ChangeSet) (t : Str) : ChangeSet :=
  { cs with operations := cs.operations ++ [.insert t],
            lenAfter := cs.lenAfter + t.length }

/-- part_006 `ChangeSet.IsEmpty`. -/
def ChangeSet.IsEmpty (cs : ChangeSet) : Bool :=
  cs.operations.isEmpty

/-- One step of part_006 `fuse`: merge `op` into the accumulated list when
the last accumulated operation has the same type, else append it. -/
def fuseStep (acc : List Op) (op : Op) : List Op :=
  match acc.getLast?, op with
  | some (.retain a), .retain b => acc.dropLast ++ [.retain (a + b)]
  | some (.delete a), .delete b => acc.dropLast ++ [.delete (a + b)]
  | some (.insert s), .insert t => acc.dropLast ++ [.insert (s ++ t)]
  | _, _ => acc ++ [op]

/-- part_006 `ChangeSet.fuse` (on the operation list): left-to-right merge
of adjacent same-type operations; lists of length at most one are
returned unchanged by the early exit. -/
def fuse (ops : List Op) : List Op :=
  if ops.length ≤ 1 then ops else ops.foldl fuseStep []

/-- The op walk of part_006 `ChangeSet.Apply`: a cursor `pos` moves over
the evolving rope; Retain advances it, Delete removes `[pos, pos+n)`,
Insert splices at `pos` and advances by the rune count. -/
def applyOps : List Op → Nat → Str → Str
  | [], _, s => s
  | .retain n :: rest, pos, s => applyOps rest (pos + n) s
  | .delete n :: rest, pos, s => applyOps rest pos (deleteRange s pos (pos + n))
  | .insert u :: rest, pos, s => applyOps rest (pos + u.length) (insertAt s pos u)

/-- part_006 `ChangeSet.Apply`: returns the rope unchanged when the
changeset has no operations, else fuses the operations and walks them.
(The Go receiver also returns `r` when `r == nil`; there is no nil rope
in this model.) -/
def ChangeSet.Apply (cs : ChangeSet) (r : Str) : Str :=
  if cs.operations.isEmpty then r else applyOps (fuse cs.operations) 0 r

/-- The op walk of part_006 `ChangeSet.Invert`: `pos` tracks the cursor in
the ORIGINAL rope; Retain mirrors to Retain, Delete to an Insert of the
sliced original text, Insert to a Delete of its rune count.  The builder
calls are accumulated on `acc` exactly as the Go loop does. -/
def invertGo : List Op → Nat → Str → ChangeSet → ChangeSet
  | [], _, _, acc => acc
  | .retain n :: rest, pos, r, acc => invertGo rest (pos + n) r (acc.Retain n)
  | .delete n :: rest, pos, r, acc =>
      invertGo rest (pos + n) r (acc.Insert (sliceStr r pos (pos + n)))
  | .insert u :: rest, pos, r, acc => invertGo rest pos r (acc.Delete u.length)

/-- part_006 `ChangeSet.Invert`: starts from `NewChangeSet(cs.lenAfter)`,
mirrors every operation, then fuses the produced operations. -/
def ChangeSet.Invert (cs : ChangeSet) (r : Str) : ChangeSet :=
  let inv := invertGo cs.operations 0 r (NewChangeSet cs.lenAfter)
  { inv with operations := fuse inv.operations }

/-- Sum of Retain and Delete lengths: the amount of input a changeset's
operation list consumes (the data-model invariant of spec section 3 makes
this equal to `len_before`). -/
def inputLen : List Op → Nat
  | [] => 0
  | .retain n :: rest => n + inputLen rest
  | .delete n :: rest => n + inputLen rest
  | .insert _ :: rest => inputLen rest

/-- Denotation of an operation list acting on the suffix of the rope that
starts at the current cursor: the normal form of the `applyOps` walk. -/
def applyTail : List Op → Str → Str
  | [], t => t
  | .retain n :: rest, t => t.take n ++ applyTail rest (t.drop n)
  | .delete n :: rest, t => applyTail rest (t.drop n)
  | .insert u :: rest, t => u ++ applyTail rest t

/-- The mirrored operation list produced by the `Invert` walk, expressed
against the suffix of the original rope at the cursor. -/
def invertTail : List Op → Str → List Op
  | [], _ => []
  | .retain n :: rest, t => .retain n :: invertTail rest (t.drop n)
  | .delete n :: rest, t => .insert (t.take n) :: invertTail rest (t.drop n)
  | .insert u :: rest, t => .delete u.length :: invertTail rest t

theorem take_insertAt (s : Str) (pos : Nat) (u : Str) :
    (insertAt s pos u).take (pos + u.length) = s.take pos ++ u := by
  unfold insertAt
  by_cases h : pos ≤ s.length
  · have hlen : (s.take pos ++ u).length = pos + u.length := by
      simp [List.length_take, Nat.min_eq_left h]
    rw [List.take_left' hlen]
  · have hs : s.take pos = s := List.take_of_length_le (by omega)
    have hd : s.drop pos = [] := List.drop_of_length_le (by omega)
    rw [hs, hd, List.append_nil]
    exact List.take_of_length_le (by simp; omega)

theorem drop_insertAt (s : Str) (pos : Nat) (u : Str) :
    (insertAt s pos u).drop (pos + u.length) = s.drop pos := by
  unfold insertAt
  by_cases h : pos ≤ s.length
  · have hlen : (s.take pos ++ u).length = pos + u.length := by
      simp [List.length_take, Nat.min_eq_left h]
    rw [List.drop_left' hlen]
  · have hs : s.take pos = s := List.take_of_length_le (by omega)
    have hd : s.drop pos = [] := List.drop_of_length_le (by omega)
    rw [hs, hd, List.append_nil]
    exact List.drop_of_length_le (by simp; omega)

theorem take_deleteRange (s : Str) (pos n : Nat) :
    (deleteRange s pos (pos + n)).take pos = s.take pos := by
  unfold deleteRange
  by_cases h : pos ≤ s.length
  · rw [List.take_append_of_le_length (by simp [List.length_take]; omega)]
    simp [List.take_take]
  · have hd : s.drop (pos + n) = [] := List.drop_of_length_le (by omega)
    rw [hd, List.append_nil, List.take_take]
    simp

theorem drop_deleteRange (s : Str) (pos n : Nat) :
    (deleteRange s pos (pos + n)).drop pos = s.drop (pos + n) := by
  unfold deleteRange
  by_cases h : pos ≤ s.length
  · have hlen : (s.take pos).length = pos := by simp [List.length_take]; omega
    rw [List.drop_left' hlen]
  · have hd : s.drop (pos + n) = [] := List.drop_of_length_le (by omega)
    have hs : s.take pos = s := List.take_of_length_le (by omega)
    rw [hd, hs, List.append_nil]
    exact List.drop_of_length_le (by omega)

/-- The positional walk of `Apply` leaves the prefix before the cursor
untouched and acts on the suffix like `applyTail`. -/
theorem applyOps_eq_applyTail (ops : List Op) :
    ∀ (pos : Nat) (s : Str),
      applyOps ops pos s = s.take pos ++ applyTail ops (s.drop pos) := by
  induction ops with
  | nil => intro pos s; simp [applyOps, applyTail]
  | cons op rest ih =>
    intro pos s
    cases op with
    | retain n =>
      simp only [applyOps, applyTail]
      rw [ih (pos + n) s, List.take_add, List.drop_drop, List.append_assoc]
    | delete n =>
      simp only [applyOps, applyTail]
      rw [ih pos _, take_deleteRange, drop_deleteRange, List.drop_drop]
    | insert u =>
      simp only [applyOps, applyTail]
      rw [ih (pos + u.length) _, take_insertAt, drop_insertAt,
        List.append_assoc]

theorem applyTail_append_congr (xs : List Op) {A B : List Op}
    (h : ∀ u, applyTail A u = applyTail B u) :
    ∀ t, applyTail (xs ++ A) t = applyTail (xs ++ B) t := by
  induction xs with
  | nil => intro t; exact h t
  | cons op rest ih =>
    intro t
    cases op <;> simp only [List.cons_append, applyTail] <;>
      first
      | exact ih _
      | exact congrArg _ (ih _)

theorem applyTail_retain_retain (a b : Nat) (rest : List Op) (u : Str) :
    applyTail (.retain (a + b) :: rest) u =
      applyTail (.retain a :: .retain b :: rest) u := by
  simp only [applyTail]
  rw [List.take_add, List.drop_drop, List.append_assoc]

theorem applyTail_delete_delete (a b : Nat) (rest : List Op) (u : Str) :
    applyTail (.delete (a + b) :: rest) u =
      applyTail (.delete a :: .delete b :: rest) u := by
  simp only [applyTail]
  rw [List.drop_drop]

theorem applyTail_insert_insert (v w : Str) (rest : List Op) (u : Str) :
    applyTail (.insert (v ++ w) :: rest) u =
      applyTail (.insert v :: .insert w :: rest) u := by
  simp only [applyTail]
  rw [List.append_assoc]

theorem applyTail_fuseStep (acc : List Op) (op : Op) (rest : List Op)
    (t : Str) :
    applyTail (fuseStep acc op ++ rest) t = applyTail (acc ++ op :: rest) t := by
  rcases List.eq_nil_or_concat acc with rfl | ⟨init, last, rfl⟩
  · simp [fuseStep]
  · rw [List.concat_eq_append]
    cases last <;> cases op <;>
      simp only [fuseStep, List.getLast?_concat, List.dropLast_concat] <;>
      first
      | (rw [List.append_assoc, List.append_assoc]
         refine applyTail_append_congr init (fun u => ?_) t
         simp only [List.singleton_append, List.cons_append]
         first
         | exact applyTail_retain_retain ..
         | exact applyTail_delete_delete ..
         | exact applyTail_insert_insert ..)
      | simp [List.append_assoc]

theorem applyTail_foldl_fuseStep (ops : List Op) :
    ∀ (acc : List Op) (t : Str),
      applyTail (ops.foldl fuseStep acc) t = applyTail (acc ++ ops) t := by
  induction ops with
  | nil => intro acc t; simp
  | cons op rest ih =>
    intro acc t
    rw [List.foldl_cons, ih, applyTail_fuseStep]

/-- Fusing adjacent operations does not change the action on the rope. -/
theorem applyTail_fuse (ops : List Op) (t : Str) :
    applyTail (fuse ops) t = applyTail ops t := by
  unfold fuse
  by_cases h : ops.length ≤ 1
  · simp [h]
  · simp only [h, if_false, applyTail_foldl_fuseStep, List.nil_append]

theorem fuseStep_ne_nil (acc : List Op) (op : Op) : fuseStep acc op ≠ [] := by
  unfold fuseStep
  rcases List.eq_nil_or_concat acc with rfl | ⟨init, last, rfl⟩
  · simp
  · rw [List.concat_eq_append]
    cases last <;> cases op <;>
      simp [List.getLast?_concat]

theorem foldl_fuseStep_ne_nil (ops : List Op) :
    ∀ acc : List Op, acc ≠ [] → ops.foldl fuseStep acc ≠ [] := by
  induction ops with
  | nil => intro acc h; simpa using h
  | cons op rest ih =>
    intro acc _
    rw [List.foldl_cons]
    exact ih _ (fuseStep_ne_nil acc op)

theorem fuse_ne_nil {ops : List Op} (h : ops ≠ []) : fuse ops ≠ [] := by
  unfold fuse
  by_cases hl : ops.length ≤ 1
  · simpa [hl]
  · rcases ops with _ | ⟨op, rest⟩
    · simp at h
    · simp only [hl, if_false, List.foldl_cons]
      exact foldl_fuseStep_ne_nil rest _ (fuseStep_ne_nil [] op)

theorem invertGo_operations (r : Str) (ops : List Op) :
    ∀ (pos : Nat) (acc : ChangeSet),
      (invertGo ops pos r acc).operations =
        acc.operations ++ invertTail ops (r.drop pos) := by
  induction ops with
  | nil => intro pos acc; simp [invertGo, invertTail]
  | cons op rest ih =>
    intro pos acc
    cases op with
    | retain n =>
      simp only [invertGo, invertTail]
      rw [ih, List.drop_drop]
      simp [ChangeSet.Retain]
    | delete n =>
      simp only [invertGo, invertTail]
      rw [ih, List.drop_drop]
      have hsl : sliceStr r pos (pos + n) = (r.drop pos).take n := by
        simp [sliceStr]
      simp [ChangeSet.Insert, hsl]
    | insert u =>
      simp only [invertGo, invertTail]
      rw [ih]
      simp [ChangeSet.Delete]

theorem invertGo_lenBefore (r : Str) (ops : List Op) :
    ∀ (pos : Nat) (acc : ChangeSet),
      (invertGo ops pos r acc).lenBefore = acc.lenBefore := by
  induction ops with
  | nil => intro pos acc; simp [invertGo]
  | cons op rest ih =>
    intro pos acc
    cases op <;>
      simp [invertGo, ih, ChangeSet.Retain, ChangeSet.Delete, ChangeSet.Insert]

/-- Core round trip: when an operation list consumes no more input than the
rope provides, the mirrored list undoes its action. -/
theorem applyTail_invertTail (ops : List Op) :
    ∀ t : Str, inputLen ops ≤ t.length →
      applyTail (invertTail ops t) (applyTail ops t) = t := by
  induction ops with
  | nil => intro t _; simp [applyTail, invertTail]
  | cons op rest ih =>
    intro t h
    cases op with
    | retain n =>
      have hn : n ≤ t.length := by simp [inputLen] at h; omega
      have hlen : (t.take n).length = n := by simp [List.length_take]; omega
      simp only [invertTail, applyTail]
      rw [List.take_left' hlen, List.drop_left' hlen,
        ih (t.drop n) (by simp [inputLen] at h ⊢; omega)]
      exact List.take_append_drop n t
    | delete n =>
      simp only [invertTail, applyTail]
      rw [ih (t.drop n) (by simp [inputLen] at h ⊢; omega)]
      exact List.take_append_drop n t
    | insert u =>
      have hlen : u.length = u.length := rfl
      simp only [invertTail, applyTail]
      rw [List.drop_left' hlen, ih t (by simpa [inputLen] using h)]

/-- `Apply` is the tail action of the operation list: fusing first and
walking with a cursor computes `applyTail` of the stored operations. -/
theorem Apply_eq_applyTail (cs : ChangeSet) (r : Str) :
    cs.Apply r = applyTail cs.operations r := by
  rw [ChangeSet.Apply]
  by_cases h : cs.operations.isEmpty
  · have hops : cs.operations = [] := by simpa using h
    simp [hops, applyTail, h]
  · rw [if_neg (by simpa using h), applyOps_eq_applyTail]
    simp [applyTail_fuse]

theorem Invert_operations (cs : ChangeSet) (r : Str) :
    (cs.Invert r).operations = fuse (invertTail cs.operations r) := by
  simp only [ChangeSet.Invert]
  rw [invertGo_operations]
  simp [NewChangeSet]

/-- C3: for a changeset satisfying the data-model invariant (the Retain
and Delete lengths sum to `len_before`) whose `len_before` matches the
rope's length, applying `Invert(c, r)` to `Apply(c, r)` restores the
original content, and the inverted changeset's `len_before` equals
`c.len_after`. -/
theorem c3_invert_roundtrip (cs : ChangeSet) (r : Str)
    (hwf : (inputLen cs.operations : Int) = cs.lenBefore)
    (hlen : cs.lenBefore = (r.length : Int)) :
    (cs.Invert r).Apply (cs.Apply r) = r ∧
      (cs.Invert r).lenBefore = cs.lenAfter := by
  refine ⟨?_, ?_⟩
  · have hle : inputLen cs.operations ≤ r.length := by
      have hint : (inputLen cs.operations : Int) = (r.length : Int) :=
        hwf.trans hlen
      exact_mod_cast le_of_eq hint
    rw [Apply_eq_applyTail, Apply_eq_applyTail, Invert_operations,
      applyTail_fuse]
    exact applyTail_invertTail cs.operations r hle
  · simp only [ChangeSet.Invert]
    rw [invertGo_lenBefore]
    rfl

/-- Concrete instance of C3: the apply/invert round trip on the rope
"hello world" with Retain(6) Delete(5) Insert("gophers"). -/
theorem c3_invert_roundtrip_witness :
    (((NewChangeSet 11).Retain 6 |>.Delete 5
        |>.Insert "gophers".toList).Invert "hello world".toList).Apply
      (((NewChangeSet 11).Retain 6 |>.Delete 5
        |>.Insert "gophers".toList).Apply "hello world".toList) =
      "hello world".toList ∧
    (((NewChangeSet 11).Retain 6 |>.Delete 5
        |>.Insert "gophers".toList).Invert "hello world".toList).lenBefore =
      ((NewChangeSet 11).Retain 6 |>.Delete 5
        |>.Insert "gophers".toList).lenAfter :=
  c3_invert_roundtrip _ _ (by decide) (by decide)

/-- C4 counterexample: a changeset with `len_before = 5` applied to the
empty rope (length 0) does not fail with a length error — there is no
length check in `Apply` — and it silently edits the rope to "X". -/
theorem c4_apply_no_length_check_counterexample :
    ((NewChangeSet 5).Insert ['X']).lenBefore = 5 ∧
      ([] : Str).length = 0 ∧
      ((NewChangeSet 5).Insert ['X']).Apply [] = ['X'] ∧
      ((NewChangeSet 5).Insert ['X']).Apply [] ≠ [] := by
  refine ⟨by decide, by decide, by decide, by decide⟩

/-- C4 amended: `Apply` performs no length validation at all — its result
is determined by the operation list alone and is entirely independent of
`len_before` (so a mismatched base length is silently ignored). -/
theorem c4_apply_ignores_lenBefore (cs₁ cs₂ : ChangeSet) (r : Str)
    (h : cs₁.operations = cs₂.operations) : cs₁.Apply r = cs₂.Apply r := by
  rw [Apply_eq_applyTail, Apply_eq_applyTail, h]

/-- Concrete instance for C4: the same Insert("X") behaves identically
whether the declared base length is 5 or 0. -/
theorem c4_apply_ignores_lenBefore_witness :
    ((NewChangeSet 5).Insert ['X']).Apply "ab".toList =
      ((NewChangeSet 0).Insert ['X']).Apply "ab".toList :=
  c4_apply_ignores_lenBefore _ _ _ (by decide)

/-- UTF-16 length of a text: scalars at or above U+10000 count as two
code units (spec section 6). -/
def utf16Len (t : Str) : Nat :=
  t.foldl (fun a c => a + if 0x10000 ≤ c.toNat then 2 else 1) 0

/-- Replay a sequence of builder calls (part_006 Retain/Delete/Insert)
starting from `NewChangeSet lb`. -/
def buildCalls (lb : Int) (calls : List Op) : ChangeSet :=
  calls.foldl
    (fun cs c =>
      match c with
      | .retain n => cs.Retain n
      | .delete n => cs.Delete n
      | .insert t => cs.Insert t)
    (NewChangeSet lb)

/-- Total length deleted by a sequence of builder calls. -/
def sumDel : List Op → Nat
  | [] => 0
  | .delete n :: rest => n + sumDel rest
  | _ :: rest => sumDel rest

/-- Total rune count inserted by a sequence of builder calls. -/
def sumInsRunes : List Op → Nat
  | [] => 0
  | .insert t :: rest => t.length + sumInsRunes rest
  | _ :: rest => sumInsRunes rest

/-- C5 counterexample: inserting the single non-BMP scalar U+1D11E
(two UTF-16 code units) increases `len_after` by 1, not 2: the builder
counts runes, not UTF-16 code units. -/
theorem c5_utf16_counterexample :
    (buildCalls 0 [.insert [Char.ofNat 0x1D11E]]).lenAfter = 1 ∧
      utf16Len [Char.ofNat 0x1D11E] = 2 ∧
      (0 : Int) - 0 + (utf16Len [Char.ofNat 0x1D11E] : Int) ≠
        (buildCalls 0 [.insert [Char.ofNat 0x1D11E]]).lenAfter := by
  refine ⟨by decide, by decide, by decide⟩

theorem buildCalls_foldl (calls : List Op) :
    ∀ cs : ChangeSet,
      (calls.foldl
        (fun cs c =>
          match c with
          | .retain n => cs.Retain n
          | .delete n => cs.Delete n
          | .insert t => cs.Insert t)
        cs).lenAfter =
        cs.lenAfter - (sumDel calls : Int) + (sumInsRunes calls : Int) ∧
      (calls.foldl
        (fun cs c =>
          match c with
          | .retain n => cs.Retain n
          | .delete n => cs.Delete n
          | .insert t => cs.Insert t)
        cs).lenBefore = cs.lenBefore := by
  induction calls with
  | nil => intro cs; simp [sumDel, sumInsRunes]
  | cons c rest ih =>
    intro cs
    cases c with
    | retain n =>
      have h := ih (cs.Retain n)
      simp only [List.foldl_cons] at h ⊢
      refine ⟨?_, ?_⟩
      · rw [h.1]; simp [ChangeSet.Retain, sumDel, sumInsRunes]
      · rw [h.2]; simp [ChangeSet.Retain]
    | delete n =>
      have h := ih (cs.Delete n)
      simp only [List.foldl_cons] at h ⊢
      refine ⟨?_, ?_⟩
      · rw [h.1]; simp only [ChangeSet.Delete, sumDel, sumInsRunes]
        push_cast
        ring
      · rw [h.2]; simp [ChangeSet.Delete]
    | insert t =>
      have h := ih (cs.Insert t)
      simp only [List.foldl_cons] at h ⊢
      refine ⟨?_, ?_⟩
      · rw [h.1]; simp only [ChangeSet.Insert, sumDel, sumInsRunes]
        push_cast
        ring
      · rw [h.2]; simp [ChangeSet.Insert]

/-- C5 amended: for every changeset built by a sequence of Retain, Delete
and Insert calls, `len_after` equals `len_before` minus the deleted
lengths plus the inserted texts' lengths measured in RUNES (Unicode
scalars) — not UTF-16 code units: a scalar at or above U+10000
contributes 1, not 2. -/
theorem c5_lenAfter_accounting (lb : Int) (calls : List Op) :
    (buildCalls lb calls).lenAfter =
      lb - (sumDel calls : Int) + (sumInsRunes calls : Int) ∧
      (buildCalls lb calls).lenBefore = lb := by
  have h := buildCalls_foldl calls (NewChangeSet lb)
  exact ⟨h.1, h.2⟩

/-- history.go `changesetComposer.shouldProcessFirst`: Retain and Delete
from the first stream go first only when `posInFirst < posInSecond`;
Insert also when equal.  (The `posMap` parameter is received but never
read by the Go code, so it is omitted here.) -/
def shouldProcessFirst (op : Op) (pf ps : Nat) : Bool :=
  match op with
  | .retain _ => decide (pf < ps)
  | .delete _ => decide (pf < ps)
  | .insert _ => decide (pf ≤ ps)

/-- The merge loop of history.go `changesetComposer.compose`, with
`processFirstOp` and `processSecondOp` inlined.  Each iteration consumes
one operation from one of the two streams, so fuel equal to the total
operation count reproduces the Go loop exactly; the final assignment
`result.lenAfter = posInResult` is the terminal case.  (The Go code also
builds a `posMap` via `buildPositionMap`, but that map is never consulted
by `shouldProcessFirst` or `processSecondOp`, so it has no effect on the
result and is omitted.) -/
def composeGo : Nat → List Op → List Op → Nat → Nat → Nat → ChangeSet → ChangeSet
  | _, [], [], _, _, pr, acc => { acc with lenAfter := (pr : Int) }
  | 0, _, _, _, _, pr, acc => { acc with lenAfter := (pr : Int) }
  | fuel + 1, [], .retain n :: srest, pf, ps, pr, acc =>
      composeGo fuel [] srest (pf + n) (ps + n) (pr + n) (acc.Retain n)
  | fuel + 1, [], .delete n :: srest, pf, ps, pr, acc =>
      composeGo fuel [] srest (pf + n) (ps + n) pr (acc.Delete n)
  | fuel + 1, [], .insert u :: srest, pf, ps, pr, acc =>
      composeGo fuel [] srest pf ps (pr + u.length) (acc.Insert u)
  | fuel + 1, fop :: frest, [], pf, ps, pr, acc =>
      match fop with
      | .retain n => composeGo fuel frest [] (pf + n) (ps + n) (pr + n) (acc.Retain n)
      | .delete n => composeGo fuel frest [] (pf + n) ps pr (acc.Delete n)
      | .insert u => composeGo fuel frest [] pf ps (pr + u.length) (acc.Insert u)
  | fuel + 1, fop :: frest, sop :: srest, pf, ps, pr, acc =>
      if shouldProcessFirst fop pf ps then
        match fop with
        | .retain n =>
            composeGo fuel frest (sop :: srest) (pf + n) (ps + n) (pr + n) (acc.Retain n)
        | .delete n =>
            composeGo fuel frest (sop :: srest) (pf + n) ps pr (acc.Delete n)
        | .insert u =>
            composeGo fuel frest (sop :: srest) pf ps (pr + u.length) (acc.Insert u)
      else
        match sop with
        | .retain n =>
            composeGo fuel (fop :: frest) srest (pf + n) (ps + n) (pr + n) (acc.Retain n)
        | .delete n =>
            composeGo fuel (fop :: frest) srest (pf + n) (ps + n) pr (acc.Delete n)
        | .insert u =>
            composeGo fuel (fop :: frest) srest pf ps (pr + u.length) (acc.Insert u)

/-- history.go `ChangeSet.Compose` (the two-pointer composer; part_006
holds an older simplified `Compose` that no claim cites): empty-operand
special cases, then the merge loop starting from `NewChangeSet(cs.lenBefore)`. -/
def ChangeSet.Compose (cs other : ChangeSet) : ChangeSet :=
  if cs.operations.isEmpty then
    if other.operations.isEmpty then NewChangeSet cs.lenBefore
    else
      { operations := other.operations, lenBefore := other.lenBefore,
        lenAfter := other.lenAfter }
  else if other.operations.isEmpty then
    { operations := cs.operations, lenBefore := cs.lenBefore,
      lenAfter := cs.lenAfter }
  else
    composeGo (cs.operations.length + other.operations.length)
      cs.operations other.operations 0 0 0 (NewChangeSet cs.lenBefore)

/-- history.go `ChangeSet.Transform`: returns the composed changeset
(the Go comment says a full implementation would handle concurrent edits
more carefully). -/
def ChangeSet.Transform (cs other : ChangeSet) : ChangeSet :=
  if cs.operations.isEmpty then other
  else if other.operations.isEmpty then cs
  else cs.Compose other

/-- The left operand of the spec's transform tie-break example:
Insert("Hello") against the empty rope. -/
def insHello : ChangeSet := (NewChangeSet 0).Insert "Hello".toList

/-- The right operand of the spec's transform tie-break example:
Insert("World") against the empty rope. -/
def insWorld : ChangeSet := (NewChangeSet 0).Insert "World".toList

/-- C1 counterexample: on the spec's own tie-break example the two
application orders disagree — applying Insert("Hello") and then the
transformed Insert("World") yields "HelloWorldHello", while the opposite
order yields "WorldHelloWorld"; neither equals "HelloWorld", so transform
convergence fails on the code. -/
theorem c1_transform_counterexample :
    (insHello.Transform insWorld).Apply (insHello.Apply []) =
        "HelloWorldHello".toList ∧
      (insWorld.Transform insHello).Apply (insWorld.Apply []) =
        "WorldHelloWorld".toList ∧
      (insHello.Transform insWorld).Apply (insHello.Apply []) ≠
        (insWorld.Transform insHello).Apply (insWorld.Apply []) ∧
      (insHello.Transform insWorld).Apply (insHello.Apply []) ≠
        "HelloWorld".toList := by
  refine ⟨by decide, by decide, by decide, by decide⟩

/-- C1 amended: `Transform` is not an operational transform at all — for
changesets with operations it simply returns the composition
`Compose(a, b)`, and convergence fails (see the counterexample). -/
theorem c1_transform_is_compose (a b : ChangeSet)
    (ha : a.operations ≠ []) (hb : b.operations ≠ []) :
    a.Transform b = a.Compose b := by
  rw [ChangeSet.Transform, if_neg (by simpa using ha),
    if_neg (by simpa using hb)]

/-- Concrete instance for C1: the tie-break operands are transformed by
composition. -/
theorem c1_transform_is_compose_witness :
    insHello.Transform insWorld = insHello.Compose insWorld :=
  c1_transform_is_compose _ _ (by decide) (by decide)

/-- First operand of the repo's own test TestCompose_DeleteDelete:
Retain(1) Delete(1) on a document of length 4. -/
def csDelFirst : ChangeSet := (NewChangeSet 4).Retain 1 |>.Delete 1

/-- Second operand of TestCompose_DeleteDelete: Retain(1) Delete(1) on
the length-3 result. -/
def csDelSecond : ChangeSet := (NewChangeSet 3).Retain 1 |>.Delete 1

/-- C2 failing input (the repo's own test TestCompose_DeleteDelete):
with a = Retain(1) Delete(1) on "abcd" and b = Retain(1) Delete(1),
sequential application yields "ad" (the test's expectation), but
Compose(a, b) applied to "abcd" yields "ac" — the composer replays b's
Delete at the wrong position, so the composition law fails. -/
theorem c2_compose_failing_input :
    csDelFirst.lenAfter = csDelSecond.lenBefore ∧
      csDelSecond.Apply (csDelFirst.Apply "abcd".toList) = "ad".toList ∧
      (csDelFirst.Compose csDelSecond).Apply "abcd".toList = "ac".toList ∧
      (csDelFirst.Compose csDelSecond).Apply "abcd".toList ≠
        csDelSecond.Apply (csDelFirst.Apply "abcd".toList) := by
  refine ⟨by decide, by decide, by decide, by decide⟩

/-- Revision, from history.go (the `timestamp` field plays no role in any
claim and is omitted). -/
structure Revision where
  parent : Int
  lastChild : Int
  transaction : ChangeSet
  inversion : ChangeSet
deriving DecidableEq, Repr

/-- History, from history.go (the `sync.RWMutex` guards concurrent access
and has no sequential semantics; it is omitted). -/
structure History where
  revisions : List Revision
  current : Int
  maxSize : Int
deriving DecidableEq, Repr

/-- history.go `NewHistory`. -/
def NewHistory : History := { revisions := [], current := -1, maxSize := 1000 }

/-- history.go `History.prune`. -/
def History.prune (h : History) : History :=
  if h.maxSize ≤ 0 then h
  else if (h.revisions.length : Int) ≤ h.maxSize then h
  else
    let excess : Int := (h.revisions.length : Int) - h.maxSize
    let newRoot : Nat :=
      if (h.revisions.length : Int) ≤ excess then h.revisions.length - 1
      else excess.toNat
    let revs := (h.revisions.drop newRoot).map fun rv =>
      { rv with
        parent := if 0 ≤ rv.parent then rv.parent - newRoot else rv.parent,
        lastChild :=
          if 0 ≤ rv.lastChild then rv.lastChild - newRoot else rv.lastChild }
    let cur := h.current - newRoot
    { h with revisions := revs, current := if cur < -1 then -1 else cur }

/-- history.go `History.SetMaxSize`: store the new size, then prune. -/
def History.SetMaxSize (h : History) (size : Int) : History :=
  History.prune { h with maxSize := size }

/-- In-place update of `revisions[i].lastChild` (the Go assignment
`h.revisions[h.current].lastChild = newIndex`). -/
def updateLastChild : List Revision → Nat → Int → List Revision
  | [], _, _ => []
  | rv :: rest, 0, v => { rv with lastChild := v } :: rest
  | rv :: rest, n + 1, v => rv :: updateLastChild rest n v

/-- history.go `History.CommitRevision`: skip empty transactions, invert
against the original rope, append as a child of `current`, update the
parent's `lastChild`, advance `current`, prune.  Transactions are
represented by their changesets (part_006 `Transaction` wraps a changeset
and a timestamp). -/
def History.CommitRevision (h : History) (transaction : ChangeSet)
    (original : Str) : History :=
  if transaction.operations.isEmpty then h
  else
    let inversion := transaction.Invert original
    let revision : Revision :=
      { parent := h.current, lastChild := -1,
        transaction := transaction, inversion := inversion }
    let revs := h.revisions ++ [revision]
    let newIndex : Int := (revs.length : Int) - 1
    let revs2 :=
      if 0 ≤ h.current ∧ h.current < newIndex then
        updateLastChild revs h.current.toNat newIndex
      else revs
    History.prune { h with revisions := revs2, current := newIndex }

/-- history.go `History.Undo`, as a state transition: step `current` to
the parent of the current revision (the returned inversion transaction is
not needed by any claim).  An out-of-range `current` would abort in Go and
is mapped to the identity here; it never occurs in the runs considered. -/
def History.Undo (h : History) : History :=
  if h.current < 0 then h
  else
    match h.revisions.get? h.current.toNat with
    | none => h
    | some rv => { h with current := rv.parent }

/-- Decidable check that every revision's parent index is strictly below
the revision's own index, scanning from index `i`. -/
def parentsBelowFrom : List Revision → Int → Bool
  | [], _ => true
  | rv :: rest, i => decide (rv.parent < i) && parentsBelowFrom rest (i + 1)

/-- Every revision's parent index is strictly below its own index (so
every non-negative parent refers to an earlier revision in the vector). -/
def parentsBelow (revs : List Revision) : Bool :=
  parentsBelowFrom revs 0

/-- A nonempty single-insert transaction used to build concrete histories. -/
def txIns : ChangeSet := (NewChangeSet 0).Insert ['a']

/-- A concrete history: commit four revisions with two undos in between
(parents -1, 0, 1, 0), then shrink the maximum size to 2, forcing a prune
of the two oldest revisions. -/
def hPruneEx : History :=
  ((((((NewHistory.CommitRevision txIns []).CommitRevision txIns
      ['a']).CommitRevision txIns ['a']).Undo).Undo).CommitRevision txIns
      ['a']).SetMaxSize 2

/-- C6 counterexample: after pruning, the surviving copy of the fourth
revision (whose parent, index 0, was pruned) carries parent index -2 —
neither -1 nor a valid index of a surviving revision, a dangling parent. -/
theorem c6_prune_counterexample :
    (hPruneEx.revisions.get? 1).map Revision.parent = some (-2) ∧
      ((-2 : Int) ≠ -1 ∧ ¬ (0 : Int) ≤ -2) ∧
      hPruneEx.revisions.length = 2 ∧ hPruneEx.current = 1 := by
  refine ⟨by decide, by decide, by decide, by decide⟩

theorem parentsBelowFrom_iff (revs : List Revision) :
    ∀ i : Int, parentsBelowFrom revs i = true ↔
      ∀ (j : Nat) (hj : j < revs.length), (revs.get ⟨j, hj⟩).parent < i + j := by
  induction revs with
  | nil => intro i; simp [parentsBelowFrom]
  | cons rv rest ih =>
    intro i
    simp only [parentsBelowFrom, Bool.and_eq_true, decide_eq_true_eq, ih]
    constructor
    · rintro ⟨h0, hrest⟩ j hj
      cases j with
      | zero => simpa using h0
      | succ j' =>
        have := hrest j' (by simpa using hj)
        simp only [List.get] at this ⊢
        omega
    · intro hall
      refine ⟨by simpa using hall 0 (by simp), fun j hj => ?_⟩
      have := hall (j + 1) (by simpa using hj)
      simp only [List.get] at this ⊢
      omega

/-- C6 amended: when the history exceeds `max_size` (positive), prune
drops the oldest `excess` revisions, subtracts the prune count from every
surviving non-negative parent and last-child index, and clamps `current`
at -1; if parent indices were strictly below their revision's index
before, they remain so afterwards — hence every surviving NON-NEGATIVE
parent is a valid index of an earlier surviving revision — but a parent
whose revision was pruned merely goes negative and can drop below -1
(see the counterexample), so the no-dangling-parent property fails. -/
theorem c6_prune_amended (h : History)
    (hms : 0 < h.maxSize) (hlen : h.maxSize < (h.revisions.length : Int))
    (hpar : parentsBelow h.revisions = true) :
    h.prune.revisions =
      (h.revisions.drop (((h.revisions.length : Int) - h.maxSize).toNat)).map
        (fun rv =>
          { rv with
            parent :=
              if 0 ≤ rv.parent then
                rv.parent - (((h.revisions.length : Int) - h.maxSize).toNat)
              else rv.parent,
            lastChild :=
              if 0 ≤ rv.lastChild then
                rv.lastChild - (((h.revisions.length : Int) - h.maxSize).toNat)
              else rv.lastChild }) ∧
      h.prune.current =
        (if h.current - (((h.revisions.length : Int) - h.maxSize).toNat) < -1
          then -1
          else h.current - (((h.revisions.length : Int) - h.maxSize).toNat)) ∧
      parentsBelow h.prune.revisions = true := by
  have hnot1 : ¬ h.maxSize ≤ 0 := by omega
  have hnot2 : ¬ (h.revisions.length : Int) ≤ h.maxSize := by omega
  have hcap : ¬ (h.revisions.length : Int) ≤
      (h.revisions.length : Int) - h.maxSize := by omega
  have hprune :
      h.prune =
        { h with
          revisions :=
            (h.revisions.drop
              (((h.revisions.length : Int) - h.maxSize).toNat)).map
              (fun rv =>
                { rv with
                  parent :=
                    if 0 ≤ rv.parent then
                      rv.parent -
                        (((h.revisions.length : Int) - h.maxSize).toNat)
                    else rv.parent,
                  lastChild :=
                    if 0 ≤ rv.lastChild then
                      rv.lastChild -
                        (((h.revisions.length : Int) - h.maxSize).toNat)
                    else rv.lastChild }),
          current :=
            if h.current - (((h.revisions.length : Int) - h.maxSize).toNat) < -1
            then -1
            else
              h.current -
                (((h.revisions.length : Int) - h.maxSize).toNat) } := by
    rw [History.prune, if_neg hnot1, if_neg hnot2]
    simp only [hcap, if_false]
  refine ⟨by rw [hprune], by rw [hprune], ?_⟩
  rw [hprune]
  set k : Nat := (((h.revisions.length : Int) - h.maxSize)).toNat with hk
  rw [parentsBelow, parentsBelowFrom_iff]
  intro j hj
  simp only [List.get_eq_getElem, List.getElem_map, List.getElem_drop]
  have hlt : k + j < h.revisions.length := by
    simp only [List.length_map, List.length_drop] at hj
    omega
  have horig :
      (h.revisions.get ⟨k + j, hlt⟩).parent < (0 : Int) + (k + j) := by
    exact (parentsBelowFrom_iff h.revisions 0).1 hpar (k + j) hlt
  simp only [List.get_eq_getElem] at horig
  by_cases hp : 0 ≤ (h.revisions[k + j]).parent
  · simp only [hp, if_true]
    omega
  · simp only [hp, if_false]
    omega

/-- The concrete pre-prune history (maximum size already lowered to 2)
whose parents are -1, 0, 1, 0. -/
def hPrePrune : History :=
  { ((((NewHistory.CommitRevision txIns []).CommitRevision txIns
        ['a']).CommitRevision txIns ['a']).Undo).Undo.CommitRevision txIns
        ['a'] with
    maxSize := 2 }

/-- Concrete instance for C6: pruning the four-revision history keeps all
surviving parents strictly below their own indices. -/
theorem c6_prune_amended_witness :
    parentsBelow hPrePrune.prune.revisions = true :=
  (c6_prune_amended hPrePrune (by decide) (by decide) (by decide)).2.2

/-- Assoc, from transaction_advanced.go (six cursor association modes). -/
inductive Assoc where
  | before
  | after
  | beforeWord
  | afterWord
  | beforeSticky
  | afterSticky
deriving DecidableEq, Repr

/-- history.go `ChangeSet.applyAssociation` (the receiver is unused in Go):
Before keeps `newPos`, After adds the operation length, the sticky modes
add the offset of the target inside the operation clamped above by the
operation length (not clamped below, hence the `Int` result), and the
word modes fall to the default branch returning `newPos`. -/
def applyAssociationCS (newPos : Int) (a : Assoc)
    (opStart opLength targetPos : Nat) : Int :=
  match a with
  | .before => newPos
  | .after => newPos + opLength
  | .beforeSticky =>
      let offset : Int := (targetPos : Int) - opStart
      newPos + (if (opLength : Int) < offset then (opLength : Int) else offset)
  | .afterSticky =>
      let offset : Int := (targetPos : Int) - opStart
      newPos + (if (opLength : Int) < offset then (opLength : Int) else offset)
  | _ => newPos

/-- The op loop of history.go `ChangeSet.MapPosition`: `cur` is the
position in the old document, `new` in the new one; after each operation
the loop breaks (returning the accumulated `new`) once `cur` has reached
the target position `p`. -/
def mapPosLoop : List Op → Nat → Nat → Nat → Assoc → Int
  | [], _, new, _, _ => new
  | .retain n :: rest, cur, new, p, a =>
      if p < cur + n then
        applyAssociationCS ((new : Int) + ((p : Int) - (cur : Int))) a cur n p
      else if p ≤ cur + n then ((new + n : Nat) : Int)
      else mapPosLoop rest (cur + n) (new + n) p a
  | .delete n :: rest, cur, new, p, a =>
      if p < cur + n then applyAssociationCS (new : Int) a cur n p
      else if p ≤ cur + n then (new : Int)
      else mapPosLoop rest (cur + n) new p a
  | .insert u :: rest, cur, new, p, a =>
      if p ≤ cur then applyAssociationCS (new : Int) a cur u.length p
      else mapPosLoop rest cur (new + u.length) p a

/-- history.go `ChangeSet.MapPosition`: positions outside `[0, lenBefore]`
are returned unchanged, otherwise the op loop runs from the start. -/
def ChangeSet.MapPosition (cs : ChangeSet) (pos : Int) (a : Assoc) : Int :=
  if pos < 0 ∨ cs.lenBefore < pos then pos
  else mapPosLoop cs.operations 0 0 pos.toNat a

/-- A position registered with the PositionMapper
(transaction_advanced.go `Position`; `Offset` is used by the sticky
modes). -/
structure MPosition where
  pos : Nat
  assoc : Assoc
  offset : Int
deriving DecidableEq, Repr

/-- transaction_advanced.go `PositionMapper.advanceTo`: walk ALL
operations from the start of the list, stopping early once the old-space
cursor reaches `target`; returns the updated (pos, newPos) pair (`pos` is
passed by pointer in Go). -/
def advanceTo : List Op → Nat → Nat → Nat → Nat × Nat
  | [], _, pos, newPos => (pos, newPos)
  | .retain n :: rest, target, pos, newPos =>
      if target ≤ pos + n then (target, newPos + (target - pos))
      else advanceTo rest target (pos + n) (newPos + n)
  | .delete n :: rest, target, pos, newPos =>
      if target ≤ pos + n then (pos + n, newPos)
      else advanceTo rest target (pos + n) newPos
  | .insert u :: rest, target, pos, newPos =>
      if target ≤ pos then (pos, newPos + u.length)
      else advanceTo rest target pos (newPos + u.length)

/-- The while-loop of transaction_advanced.go `PositionMapper.mapSorted`:
repeat `advanceTo` while `pos < oldPos && pos < lenBefore` (breaking when
the operation list is empty).  The Go loop diverges when `advanceTo`
cannot move `pos`; `none` reports fuel exhaustion, and any terminating Go
execution is reproduced with fuel above `lenBefore`, since each
terminating iteration strictly increases `pos` which stays below
`lenBefore`. -/
def mapSortedWhile : Nat → List Op → Int → Nat → Nat → Nat →
    Option (Nat × Nat)
  | 0, _, _, _, _, _ => none
  | fuel + 1, ops, lenBefore, oldPos, pos, newPos =>
      if pos < oldPos ∧ (pos : Int) < lenBefore then
        if ops.isEmpty then some (pos, newPos)
        else
          match advanceTo ops oldPos pos newPos with
          | (pos2, newPos2) => mapSortedWhile fuel ops lenBefore oldPos pos2 newPos2
      else some (pos, newPos)

/-- transaction_advanced.go `PositionMapper.applyAssociation` for a mapper
built by `NewPositionMapper` (whose `wordBoundary` is nil, so the word
modes return `newPos`); After calls `applyAfterAssociation`, which also
returns `newPos`. -/
def applyAssociationPM (position : MPosition) (newPos : Nat) : Int :=
  match position.assoc with
  | .before => (newPos : Int)
  | .after => (newPos : Int)
  | .beforeWord => (newPos : Int)
  | .afterWord => (newPos : Int)
  | .beforeSticky => (newPos : Int) + position.offset
  | .afterSticky => (newPos : Int) + position.offset

/-- transaction_advanced.go `PositionMapper.mapSorted`: the (pos, newPos)
state is threaded through the sorted positions; each position first runs
the while-loop, then applies its association. -/
def mapSortedPM : List MPosition → ChangeSet → Nat → Nat → Option (List Int)
  | [], _, _, _ => some []
  | position :: rest, cs, pos, newPos =>
      match mapSortedWhile (cs.lenBefore.toNat + 1) cs.operations cs.lenBefore
          position.pos pos newPos with
      | none => none
      | some (pos2, newPos2) =>
          match mapSortedPM rest cs pos2 newPos2 with
          | none => none
          | some rs => some (applyAssociationPM position newPos2 :: rs)

/-- The changeset of the multi-cursor scenario: Retain(6) Insert("X")
against the 20-character rope "Line 1\nLine 2\nLine 3". -/
def csMapEx : ChangeSet := (NewChangeSet 20).Retain 6 |>.Insert ['X']

/-- C7 counterexample: `ChangeSet.MapPosition` maps position 13 (with
association Before) through Retain(6) Insert("X") to 7, not to the
claimed 14 = new_pos + (p - old_pos): when the position lies beyond the
changeset's operations, the loop just returns the accumulated new
position. -/
theorem c7_mapPosition_counterexample :
    csMapEx.MapPosition 13 .before = 7 ∧
      csMapEx.MapPosition 13 .before ≠ 14 := by
  refine ⟨by decide, by decide⟩

/-- C7 amended: a position strictly inside a Retain is mapped by the
`MapPosition` loop to new_pos + (p - old_pos); the batch scenario —
sorted positions (6, 13) with Before through Retain(6) Insert("X") —
yields (6, 14) via `PositionMapper.mapSorted`; but `ChangeSet.MapPosition`
maps 6 to 6 and 13 to 7: the "or beyond" part of the claim fails for it. -/
theorem c7_position_mapping (n : Nat) (rest : List Op) (cur new p : Nat)
    (hin : p < cur + n) :
    mapPosLoop (.retain n :: rest) cur new p .before =
        (new : Int) + ((p : Int) - (cur : Int)) ∧
      mapSortedPM [⟨6, .before, 0⟩, ⟨13, .before, 0⟩] csMapEx 0 0 =
        some [6, 14] ∧
      csMapEx.MapPosition 6 .before = 6 ∧
      csMapEx.MapPosition 13 .before = 7 := by
  refine ⟨?_, by decide, by decide, by decide⟩
  simp only [mapPosLoop, hin, if_true, applyAssociationCS]

/-- Concrete instance for C7: position 3 inside Retain(6) maps to 3. -/
theorem c7_position_mapping_witness :
    mapPosLoop [Op.retain 6, Op.insert ['X']] 0 0 3 .before =
      (0 : Int) + ((3 : Int) - (0 : Int)) :=
  (c7_position_mapping 6 [Op.insert ['X']] 0 0 3 (by decide)).1

/-- Outcome of a Go function that either returns a value or aborts via
`panic` (the panic messages are in the source: "slice bounds out of
range", "line number out of bounds", "character position out of
bounds"). -/
inductive PanicOr (α : Type) where
  | ok (v : α)
  | panicked
deriving DecidableEq, Repr

/-- string_optimized.go `Rope.SliceOptimized`: panics when
`start < 0 || end > r.length || start > end`, returns "" when
`start == end`, else collects the characters in `[start, end)` by walking
the chunks (the walk skips `start` characters and collects `end - start`,
which is the drop/take of the content; the `r == nil` guard has no
counterpart for a content list). -/
def sliceOptimized (r : Str) (start e : Int) : PanicOr Str :=
  if start < 0 ∨ (r.length : Int) < e ∨ e < start then .panicked
  else if start = e then .ok []
  else .ok ((r.drop start.toNat).take (e - start).toNat)

/-- line_ops.go `Rope.LineCount`: 0 for an empty rope; otherwise the
number of newlines, plus one when the content does not end with one. -/
def lineCount (r : Str) : Nat :=
  if r.length = 0 then 0
  else
    let count := r.count '\n'
    if r.getLast? = some '\n' then count else count + 1

/-- The iterator walk of line_ops.go `Rope.LineStart`: scan the
characters counting newlines; upon consuming the `target`-th newline
return the position after it (`it.Position()` is the index plus one);
falling off the end returns the rope length. -/
def lineStartWalk : Str → Nat → Nat → Nat → Nat → Nat
  | [], _, _, _, total => total
  | c :: rest, target, currentLine, idx, total =>
      if c = '\n' then
        if currentLine + 1 = target then idx + 1
        else lineStartWalk rest target (currentLine + 1) (idx + 1) total
      else lineStartWalk rest target currentLine (idx + 1) total

/-- line_ops.go `Rope.LineStart`: panics when
`lineNum < 0 || lineNum >= r.LineCount()`; returns 0 for line 0, else the
position after the lineNum-th newline. -/
def lineStart (r : Str) (lineNum : Int) : PanicOr Nat :=
  if lineNum < 0 ∨ (lineCount r : Int) ≤ lineNum then .panicked
  else if lineNum = 0 then .ok 0
  else .ok (lineStartWalk r lineNum.toNat 0 0 r.length)

/-- line_ops.go `Rope.LineAtChar`: panics when
`pos < 0 || pos > r.Length()`; returns 0 for position 0, else counts the
newlines among the first `pos + 1` characters (the Go loop runs
`i <= pos && it.Next()`). -/
def lineAtChar (r : Str) (pos : Int) : PanicOr Nat :=
  if pos < 0 ∨ (r.length : Int) < pos then .panicked
  else if pos = 0 then .ok 0
  else .ok ((r.take (pos.toNat + 1)).count '\n')

/-- C8 counterexample: the three cited range-checked operations abort via
panic on out-of-range input instead of returning a typed out-of-bounds
error — slicing "ab" with end 5, line start 1 of the one-line rope "a",
and line lookup at position 5 of "ab" all panic. -/
theorem c8_panics_counterexample :
    sliceOptimized "ab".toList 0 5 = .panicked ∧
      lineStart "a".toList 1 = .panicked ∧
      lineAtChar "ab".toList 5 = .panicked := by
  refine ⟨by decide, by decide, by decide⟩

/-- C8 amended: `SliceOptimized`, `LineStart` and `LineAtChar` panic
(abort) on every out-of-range or reversed input rather than returning a
typed out-of-bounds error; the claim's "never aborts" fails for all three
cited operations. -/
theorem c8_range_checks_panic (r : Str) (start e lineNum pos : Int)
    (hs : start < 0 ∨ (r.length : Int) < e ∨ e < start)
    (hl : lineNum < 0 ∨ (lineCount r : Int) ≤ lineNum)
    (hp : pos < 0 ∨ (r.length : Int) < pos) :
    sliceOptimized r start e = .panicked ∧
      lineStart r lineNum = .panicked ∧
      lineAtChar r pos = .panicked := by
  refine ⟨?_, ?_, ?_⟩
  · rw [sliceOptimized, if_pos hs]
  · rw [lineStart, if_pos hl]
  · rw [lineAtChar, if_pos hp]

/-- Concrete instance for C8: a reversed slice range, a negative line
number and an overshooting position all panic on the rope "abc". -/
theorem c8_range_checks_panic_witness :
    sliceOptimized "abc".toList 2 1 = .panicked ∧
      lineStart "abc".toList (-1) = .panicked ∧
      lineAtChar "abc".toList 4 = .panicked :=
  c8_range_checks_panic "abc".toList 2 1 (-1) 4 (by decide) (by decide)
    (by decide)

/-- UTF-8 encoding of one scalar, the byte stream stored in the rope's
leaves (Go strings are UTF-8; `IterBytes` yields these bytes in order). -/
def utf8Bytes (c : Char) : List Nat :=
  let n := c.toNat
  if n < 0x80 then [n]
  else if n < 0x800 then [0xC0 + n / 64, 0x80 + n % 64]
  else if n < 0x10000 then
    [0xE0 + n / 4096, 0x80 + n / 64 % 64, 0x80 + n % 64]
  else
    [0xF0 + n / 262144, 0x80 + n / 4096 % 64, 0x80 + n / 64 % 64,
      0x80 + n % 64]

/-- The byte stream of one leaf chunk. -/
def leafBytes (leaf : Str) : List Nat :=
  (leaf.map utf8Bytes).flatten

/-- The byte stream of a rope given as its list of leaf chunks, in leaf
order (what `IterBytes` produces). -/
def ropeBytes (leaves : List Str) : List Nat :=
  (leaves.map leafBytes).flatten

/-- One step of 32-bit FNV-1a: xor the byte in, multiply by the prime
16777619, modulo 2^32 (`fnv.New32a` / `hasher.Write`). -/
def fnv32Step (h b : Nat) : Nat :=
  ((h ^^^ b) * 16777619) % 4294967296

/-- `Rope.HashCode32` (quoted in iterator_interfaces.go from hash.go):
FNV-1a over the byte stream produced by `IterBytes`, starting from the
32-bit offset basis 2166136261. -/
def HashCode32 (leaves : List Str) : Nat :=
  (ropeBytes leaves).foldl fnv32Step 2166136261

/-- Modelled from the spec: `equals(other)` is true iff the textual
content is equal (rope.go's `Equals` is not among the sources). -/
def ropeEquals (l₁ l₂ : List Str) : Bool :=
  decide (l₁.flatten = l₂.flatten)

theorem ropeBytes_flatten (leaves : List Str) :
    ropeBytes leaves = leafBytes leaves.flatten := by
  induction leaves with
  | nil => rfl
  | cons leaf rest ih =>
    simp only [ropeBytes, leafBytes, List.map_cons, List.flatten_cons,
      List.map_append, List.flatten_append] at ih ⊢
    rw [ih]

/-- C9: two ropes holding the same text in different leaf partitions have
equal 32-bit content hashes and are equal as content — the hash is a
function of the byte stream in leaf order only. -/
theorem c9_hash_chunk_invariant (l₁ l₂ : List Str)
    (h : l₁.flatten = l₂.flatten) :
    HashCode32 l₁ = HashCode32 l₂ ∧ ropeEquals l₁ l₂ = true := by
  refine ⟨?_, by simp [ropeEquals, h]⟩
  rw [HashCode32, HashCode32, ropeBytes_flatten, ropeBytes_flatten, h]

/-- Concrete instance of C9 (the spec's example): "Hello w" + "orld" and
"Hell" + "o world" hash equal and are equal as content. -/
theorem c9_hash_chunk_invariant_witness :
    HashCode32 ["Hello w".toList, "orld".toList] =
        HashCode32 ["Hell".toList, "o world".toList] ∧
      ropeEquals ["Hello w".toList, "orld".toList]
        ["Hell".toList, "o world".toList] = true :=
  c9_hash_chunk_invariant _ _ (by decide)

/-- LinesIterator, from line_ops.go. -/
structure LinesIterator where
  rope : Str
  lineNum : Int
  totalLines : Nat
deriving DecidableEq, Repr

/-- line_ops.go `Rope.LinesIterator`: a fresh iterator starts with
`lineNum = 0` and `totalLines = r.LineCount()`. -/
def LinesIteratorOf (r : Str) : LinesIterator :=
  { rope := r, lineNum := 0, totalLines := lineCount r }

/-- line_ops.go `LinesIterator.Next`: pre-increments `lineNum`, then
reports whether it is still below `totalLines`; returns the advanced
iterator alongside (the Go method mutates the receiver). -/
def LinesIterator.Next (it : LinesIterator) : Bool × LinesIterator :=
  let it2 := { it with lineNum := it.lineNum + 1 }
  (decide (it2.lineNum < (it.totalLines : Int)), it2)

/-- line_ops.go `LinesIterator.Reset`: sets `lineNum` to -1. -/
def LinesIterator.Reset (it : LinesIterator) : LinesIterator :=
  { it with lineNum := -1 }

/-- The line numbers at which `Current()` would be read when stepping the
iterator with `Next` until it reports false; fuel bounds the stepping and
`totalLines + 2` steps always suffice since `lineNum` increases by one
per step. -/
def collectYields : Nat → LinesIterator → List Int
  | 0, _ => []
  | fuel + 1, it =>
      let step := it.Next
      if step.1 then step.2.lineNum :: collectYields fuel step.2 else []

/-- All line indices an iterator yields from its current state. -/
def iterYields (it : LinesIterator) : List Int :=
  collectYields (it.totalLines + 2) it

theorem collectYields_from (total : Nat) :
    ∀ (fuel j : Nat) (r : Str), total - j < fuel →
      collectYields fuel
          { rope := r, lineNum := (j : Int) - 1, totalLines := total } =
        (List.range' j (total - j)).map (fun n => (n : Int)) := by
  intro fuel
  induction fuel with
  | zero => intro j r h; omega
  | succ fuel ih =>
    intro j r h
    have harith : ((j : Int) - 1) + 1 = (j : Int) := by ring
    simp only [collectYields, LinesIterator.Next, harith]
    by_cases hj : j < total
    · have hcond : ((j : Int) < (total : Int)) := by exact_mod_cast hj
      rw [decide_eq_true hcond, if_pos rfl]
      have hj1 : ((j : Int)) = ((j + 1 : Nat) : Int) - 1 := by push_cast; ring
      rw [hj1, ih (j + 1) r (by omega)]
      have hrange : total - j = (total - (j + 1)) + 1 := by omega
      rw [hrange, List.range'_succ]
      simp
    · have hcond : ¬ ((j : Int) < (total : Int)) := by omega
      rw [decide_eq_false hcond, if_neg (by simp)]
      have htj : total - j = 0 := by omega
      simp [htj]

/-- C10: a freshly constructed LinesIterator (line counter 0, Next
pre-increments before the bounds check) yields exactly the line indices
1 through L-1, skipping line 0; after Reset (line counter -1) it yields
all L indices 0 through L-1. -/
theorem c10_lines_iterator_skips_first (r : Str) :
    iterYields (LinesIteratorOf r) =
        (List.range' 1 (lineCount r - 1)).map (fun n => (n : Int)) ∧
      iterYields ((LinesIteratorOf r).Reset) =
        (List.range' 0 (lineCount r)).map (fun n => (n : Int)) := by
  constructor
  · have h := collectYields_from (lineCount r) (lineCount r + 2) 1 r (by omega)
    simpa [iterYields, LinesIteratorOf] using h
  · have h := collectYields_from (lineCount r) (lineCount r + 2) 0 r (by omega)
    simpa [iterYields, LinesIteratorOf, LinesIterator.Reset] using h

end Texere
